import Mathlib

/-!
Verification development for the protobuf canonical-hashing library
(`hashpb.go`, the reflective traversal) and the per-message-type code
generator (`internal/generator/generator.go`).

The digest sink is modelled by the list of bytes written to it: two runs
feed the sink identical byte streams exactly when these lists are equal,
so statements about digest equality are stated as equality of the byte
streams.  Bytes are `Nat` (always < 256 by construction of the encoders).
Machine integers are `Int`/`Nat` with explicit two's-complement wrapping
(`% 2 ^ 32`, `% 2 ^ 64`) where the Go code converts.  Floating point
values are represented by their IEEE-754 bit patterns, which is all the
code ever reads of them (`math.Float32bits` / `math.Float64bits`).
-/

namespace Hashpb

/-! ### Wire encodings (google.golang.org/protobuf/encoding/protowire)

`protowire.AppendVarint` emits 7-bit groups, least significant first,
with the high bit set on every byte except the last; the Go code unrolls
at most ten groups, which covers every `uint64`.  The fuel argument of
`appendVarintAux` mirrors that ten-group unrolling and keeps the
function kernel-reducible. -/

def appendVarintAux : Nat → Nat → List Nat
  | 0, v => [v % 128]
  | fuel + 1, v => if v < 128 then [v] else (v % 128 + 128) :: appendVarintAux fuel (v / 128)

def appendVarint (v : Nat) : List Nat := appendVarintAux 10 v

/-- `protowire.EncodeBool`. -/
def encodeBool (b : Bool) : Nat := if b then 1 else 0

/-- Go `int32(x)`: two's-complement truncation to 32 bits. -/
def toInt32 (x : Int) : Int := (x + 2 ^ 31) % 2 ^ 32 - 2 ^ 31

/-- Go `int64(x)`: two's-complement truncation to 64 bits. -/
def toInt64 (x : Int) : Int := (x + 2 ^ 63) % 2 ^ 64 - 2 ^ 63

/-- Go `uint32(x)` applied to a signed value. -/
def uint32ofInt (x : Int) : Nat := (x % 2 ^ 32).toNat

/-- Go `uint64(x)` applied to a signed value (sign extension then
reinterpretation, i.e. reduction mod `2^64`). -/
def uint64ofInt (x : Int) : Nat := (x % 2 ^ 64).toNat

/-- `protowire.EncodeZigZag` (`uint64(x<<1) ^ uint64(x>>63)`): for every
in-range `int64` this is `2x` for `x ≥ 0` and `2|x| - 1` for `x < 0`. -/
def encodeZigZag (x : Int) : Nat :=
  if 0 ≤ x then (2 * x).toNat % 2 ^ 64 else (2 * (-x) - 1).toNat % 2 ^ 64

/-- `protowire.AppendFixed32`: four little-endian bytes. -/
def appendFixed32 (v : Nat) : List Nat :=
  [v % 256, v / 2 ^ 8 % 256, v / 2 ^ 16 % 256, v / 2 ^ 24 % 256]

/-- `protowire.AppendFixed64`: eight little-endian bytes. -/
def appendFixed64 (v : Nat) : List Nat :=
  [v % 256, v / 2 ^ 8 % 256, v / 2 ^ 16 % 256, v / 2 ^ 24 % 256,
   v / 2 ^ 32 % 256, v / 2 ^ 40 % 256, v / 2 ^ 48 % 256, v / 2 ^ 56 % 256]

/-- `protowire.AppendBytes` (and `AppendString`, which is the same on
the UTF-8 bytes): unsigned-varint length followed by the raw bytes. -/
def appendBytesEnc (bs : List Nat) : List Nat := appendVarint bs.length ++ bs

/-- Go byte-wise lexicographic string comparison (`a < b` on `string`). -/
def bytesLt : List Nat → List Nat → Bool
  | [], [] => false
  | [], _ :: _ => true
  | _ :: _, [] => false
  | a :: as, b :: bs => if a < b then true else if b < a then false else bytesLt as bs

/-! ### Schema data model (protoreflect descriptors) -/

/-- `protoreflect.Kind`.  `group` stands for the one kind the encoder's
switch has no rule for (its `default` branch). -/
inductive Kind where
  | bool | enum | int32 | sint32 | uint32 | int64 | sint64 | uint64
  | sfixed32 | fixed32 | float | sfixed64 | fixed64 | double
  | string | bytes | message | group
deriving DecidableEq, Repr

/-- Field cardinality (`fd.IsList()` / `fd.IsMap()` / neither). -/
inductive Cardinality where
  | singular | list | mapc
deriving DecidableEq, Repr

/-- A oneof descriptor: its fully-qualified name and whether it is the
synthetic oneof wrapping a proto3 `optional` field. -/
structure OneofDesc where
  fullName : String
  synthetic : Bool
deriving DecidableEq, Repr

/-- The slice of `protoreflect.FieldDescriptor` the hashing code reads:
field number, fully-qualified name, kind, cardinality, containing oneof
(if any) and, for map fields, the key and value kinds. -/
structure FieldDescriptor where
  number : Nat
  fullName : String
  kind : Kind
  card : Cardinality := .singular
  containingOneof : Option OneofDesc := none
  mapKeyKind : Kind := .int32
  mapValueKind : Kind := .int32
deriving DecidableEq, Repr

/-- `protoreflect.MapKey`: the dynamic value held by a map key.
`kOther` stands for any dynamic type outside the six the comparator's
type switch handles (its `default: panic` branch). -/
inductive MapKey where
  | kBool (b : Bool)
  | kInt32 (i : Int)
  | kInt64 (i : Int)
  | kUint32 (n : Nat)
  | kUint64 (n : Nat)
  | kString (s : List Nat)
  | kOther
deriving DecidableEq, Repr

/-- `MapKey.Bool()`: `none` models the panic on a non-bool key. -/
def MapKey.boolV : MapKey → Option Bool
  | .kBool b => some b
  | _ => none

/-- `MapKey.Int()`. -/
def MapKey.intV : MapKey → Option Int
  | .kInt32 i => some i
  | .kInt64 i => some i
  | _ => none

/-- `MapKey.Uint()`. -/
def MapKey.uintV : MapKey → Option Nat
  | .kUint32 n => some n
  | .kUint64 n => some n
  | _ => none

/-- `MapKey.String()`. -/
def MapKey.strV : MapKey → Option (List Nat)
  | .kString s => some s
  | _ => none

/-- Constructor tag used to state well-formedness of a map's key set (a
real protobuf map has a single key kind). Tags `0`–`5` are the kinds
protobuf permits for map keys; `6` is `kOther`. -/
def MapKey.tag : MapKey → Nat
  | .kBool _ => 0
  | .kInt32 _ => 1
  | .kInt64 _ => 2
  | .kUint32 _ => 3
  | .kUint64 _ => 4
  | .kString _ => 5
  | .kOther => 6

/-- `compareMapKeys` from `hashpb.go`: a strict "less than" on map keys,
switching on the dynamic type of `a`. `none` models the panic, either
from the `default` branch (`a` of an unexpected type) or from extracting
the wrong type out of `b`. -/
def compareMapKeys (a b : MapKey) : Option Bool :=
  match a with
  | .kBool ab => (b.boolV).map (fun bb => !ab && bb)
  | .kInt32 _ | .kInt64 _ =>
      match a.intV, b.intV with
      | some ai, some bi => some (decide (ai < bi))
      | _, _ => none
  | .kUint32 _ | .kUint64 _ =>
      match a.uintV, b.uintV with
      | some au, some bu => some (decide (au < bu))
      | _, _ => none
  | .kString as => (b.strV).map (fun bs => bytesLt as bs)
  | .kOther => none

/-- The comparator as a total Boolean function (meaningful only where
`compareMapKeys` is defined). -/
def cmpLtB (a b : MapKey) : Bool := (compareMapKeys a b).getD false

/-! ### Message values -/

mutual
/-- A populated protobuf value as surfaced by `protoreflect.Value`. -/
inductive Value where
  | vBool (b : Bool)
  | vInt (i : Int)
  | vUint (n : Nat)
  | vFloat (bits : Nat)
  | vStr (s : List Nat)
  | vBytes (bs : List Nat)
  | vMsg (m : List Field)

/-- The content of one field slot of a message instance. -/
inductive FieldValue where
  | singular (v : Value)
  | list (vs : List Value)
  | mapv (es : List (MapKey × Value))

/-- A field of a message instance: its descriptor together with its
content; `none` means the field is not populated (`msg.Has` is false for
unset singular fields). -/
inductive Field where
  | mk (fd : FieldDescriptor) (val : Option FieldValue)
end

/-- A message instance: its (declaration-ordered) field list. -/
abbrev Msg := List Field

def Field.fd : Field → FieldDescriptor
  | .mk fd _ => fd

def Field.val : Field → Option FieldValue
  | .mk _ val => val

/-- `msg.Has(fd)`: explicit presence for singular fields, non-emptiness
for lists and maps. -/
def Field.has : Field → Bool
  | .mk _ none => false
  | .mk _ (some (.singular _)) => true
  | .mk _ (some (.list vs)) => !vs.isEmpty
  | .mk _ (some (.mapv es)) => !es.isEmpty

/-- `protoreflect.Value` accessors; the fallback values are unreachable
for values whose shape matches their descriptor. -/
def Value.boolV : Value → Bool
  | .vBool b => b
  | _ => false

def Value.intV : Value → Int
  | .vInt i => i
  | _ => 0

def Value.uintV : Value → Nat
  | .vUint n => n
  | _ => 0

def Value.floatBits : Value → Nat
  | .vFloat bits => bits
  | _ => 0

def Value.strV : Value → List Nat
  | .vStr s => s
  | _ => []

def Value.bytesV : Value → List Nat
  | .vBytes bs => bs
  | _ => []

/-- The zero value the generated `Get` accessors return for an unset
field of the given kind. -/
def defaultValue : Kind → Value
  | .bool => .vBool false
  | .enum => .vInt 0
  | .int32 | .sint32 | .int64 | .sint64 | .sfixed32 | .sfixed64 => .vInt 0
  | .uint32 | .uint64 | .fixed32 | .fixed64 => .vUint 0
  | .float | .double => .vFloat 0
  | .string => .vStr []
  | .bytes => .vBytes []
  | .message | .group => .vMsg []

/-- The canonical byte sequence of one scalar value of a given kind.
This is the common kind-to-bytes table of `pbHasher.writeSingularValue`
(`hashpb.go`) and `codegen.genSingularField` (`generator.go`), which
emit the same `protowire` calls; `message` and `group` are handled by
the callers. -/
def scalarEncode (k : Kind) (v : Value) : List Nat :=
  match k with
  | .bool => appendVarint (encodeBool v.boolV)
  | .enum => appendVarint (uint64ofInt (toInt32 v.intV))
  | .int32 => appendVarint (uint64ofInt (toInt32 v.intV))
  | .sint32 => appendVarint (encodeZigZag (toInt32 v.intV))
  | .uint32 => appendVarint (v.uintV % 2 ^ 32)
  | .int64 => appendVarint (uint64ofInt v.intV)
  | .sint64 => appendVarint (encodeZigZag (toInt64 v.intV))
  | .uint64 => appendVarint (v.uintV % 2 ^ 64)
  | .sfixed32 => appendFixed32 (uint32ofInt v.intV)
  | .fixed32 => appendFixed32 (v.uintV % 2 ^ 32)
  | .float => appendFixed32 (v.floatBits % 2 ^ 32)
  | .sfixed64 => appendFixed64 (uint64ofInt v.intV)
  | .fixed64 => appendFixed64 (v.uintV % 2 ^ 64)
  | .double => appendFixed64 (v.floatBits % 2 ^ 64)
  | .string => appendBytesEnc v.strV
  | .bytes => appendBytesEnc v.bytesV
  | .message => []
  | .group => []

/-! ### Errors

`hashpb.go` produces `errInvalidMsg`, `errUnsupported`, the
`"unsupported field kind %q"` error and the `"failed to write value of
%q: %w"` wrapper; `compareMapKeys` can additionally panic on an
unexpected key type, which is modelled as a distinct error value. -/

inductive HashErr where
  | invalidMsg
  | unsupported
  | unsupportedKind (k : Kind)
  | wrapped (fieldName : String) (e : HashErr)
  | panicUnexpectedKeyType
deriving DecidableEq, Repr

/-! ### Sorting

`sort.Slice` (and `slices.Sorted` in the generated code) with a strict
"less" comparator; modelled as insertion sort, which produces the same
(unique) result on key sets totally ordered by the comparator.
`insertKeyM` / `sortByKeyM` thread the possible comparator panic of
`compareMapKeys`; like `sort.Slice`, they perform no comparison at all
on lists of length ≤ 1. -/

def orderedInsert (lt : α → α → Bool) (a : α) : List α → List α
  | [] => [a]
  | b :: l => if lt a b then a :: b :: l else b :: orderedInsert lt a l

def insertionSort (lt : α → α → Bool) : List α → List α
  | [] => []
  | a :: l => orderedInsert lt a (insertionSort lt l)

def insertKeyM (a : MapKey × α) : List (MapKey × α) → Except HashErr (List (MapKey × α))
  | [] => .ok [a]
  | b :: l =>
      match compareMapKeys a.1 b.1 with
      | none => .error .panicUnexpectedKeyType
      | some true => .ok (a :: b :: l)
      | some false =>
          match insertKeyM a l with
          | .error e => .error e
          | .ok s => .ok (b :: s)

def sortByKeyM : List (MapKey × α) → Except HashErr (List (MapKey × α))
  | [] => .ok []
  | a :: l =>
      match sortByKeyM l with
      | .error e => .error e
      | .ok s => insertKeyM a s

/-! ### The reflective hasher (`pbHasher` in `hashpb.go`) -/

/-- `options.shouldIgnore`: a field is ignored when its containing
oneof's fully-qualified name, or its own fully-qualified name, is in the
ignore set. -/
def shouldIgnore (ig : List String) (fd : FieldDescriptor) : Bool :=
  (match fd.containingOneof with
   | some od => ig.contains od.fullName
   | none => false) || ig.contains fd.fullName

/-- The per-field outcome collected by `pbHasher.hash` before it sorts:
field number, fully-qualified name (for error wrapping) and the bytes
the field contributes (or the error raised while encoding it). -/
structure Chunk where
  number : Nat
  fullName : String
  result : Except HashErr (List Nat)

/-- Concatenate map-value byte chunks in order, stopping at the first
error (which `writeMapValue` propagates unwrapped). -/
def concatResults : List (MapKey × Except HashErr (List Nat)) → Except HashErr (List Nat)
  | [] => .ok []
  | (_, .error e) :: _ => .error e
  | (_, .ok bs) :: rest =>
      match concatResults rest with
      | .error e => .error e
      | .ok s => .ok (bs ++ s)

/-- `setDescriptors[n]`: Go map insertion overwrites, so the last field
with a given number wins. -/
def lookupChunk (chunks : List Chunk) (n : Nat) : Option Chunk :=
  (chunks.filter (fun c => c.number = n)).getLast?

/-- The processing order of `pbHasher.hash`: the populated, non-ignored
field numbers sorted ascending (`sort.Slice(setFields, ...)`). -/
def numbersOf (chunks : List Chunk) : List Nat :=
  insertionSort (fun a b => a < b) (chunks.map Chunk.number)

/-- The write loop of `pbHasher.hash`: for each field number in sorted
order, write the field's bytes, wrapping any error with the field's
fully-qualified name (`"failed to write value of %q: %w"`). -/
def assembleGo (chunks : List Chunk) : List Nat → Except HashErr (List Nat)
  | [] => .ok []
  | n :: ns =>
      match lookupChunk chunks n with
      | none => assembleGo chunks ns
      | some c =>
          match c.result with
          | .error e => .error (.wrapped c.fullName e)
          | .ok bs =>
              match assembleGo chunks ns with
              | .error e => .error e
              | .ok rest => .ok (bs ++ rest)

def assembleChunks (chunks : List Chunk) : Except HashErr (List Nat) :=
  assembleGo chunks (numbersOf chunks)

mutual

/-- `pbHasher.hash`: collect the populated, non-ignored fields, sort by
field number, and write each field's canonical bytes in that order. -/
def hashMsg (ig : List String) (m : Msg) : Except HashErr (List Nat) :=
  assembleChunks (msgChunks ig m)
termination_by (sizeOf m, 1)

/-- The field-collection loop of `pbHasher.hash` fused with the byte
computation of each collected field. -/
def msgChunks (ig : List String) : List Field → List Chunk
  | [] => []
  | .mk fd val :: fs =>
      if shouldIgnore ig fd || !(Field.mk fd val).has then msgChunks ig fs
      else ⟨fd.number, fd.fullName, writeFieldValue ig fd val⟩ :: msgChunks ig fs
termination_by fs => (sizeOf fs, 0)

/-- `pbHasher.writeValue`: dispatch on the field's cardinality.  In any
message produced by `protoreflect` the stored value's shape matches the
descriptor's cardinality; the mismatching branches are unreachable. -/
def writeFieldValue (ig : List String) (fd : FieldDescriptor) (val : Option FieldValue) :
    Except HashErr (List Nat) :=
  match fd.card, val with
  | .list, some (.list vs) => writeListValue ig fd.kind vs
  | .mapc, some (.mapv es) => writeMapValue ig fd.mapValueKind es
  | .singular, some (.singular v) => writeSingularValue ig fd.kind v
  | _, _ => .ok []
termination_by (sizeOf val, 1)

/-- `pbHasher.writeListValue`: elements in original list order. -/
def writeListValue (ig : List String) (k : Kind) : List Value → Except HashErr (List Nat)
  | [] => .ok []
  | v :: vs =>
      match writeSingularValue ig k v with
      | .error e => .error e
      | .ok bs =>
          match writeListValue ig k vs with
          | .error e => .error e
          | .ok rest => .ok (bs ++ rest)
termination_by vs => (sizeOf vs, 1)

/-- `pbHasher.writeMapValue`: empty maps contribute nothing; otherwise
sort the entries with `compareMapKeys` and write each entry's value
(keys are never written). -/
def writeMapValue (ig : List String) (vk : Kind) (es : List (MapKey × Value)) :
    Except HashErr (List Nat) :=
  if es.length = 0 then .ok []
  else
    match sortByKeyM (mapChunks ig vk es) with
    | .error e => .error e
    | .ok sorted => concatResults sorted
termination_by (sizeOf es, 1)

/-- The value bytes of each map entry, in the entry list's order (the
order is irrelevant: `writeMapValue` sorts before writing). -/
def mapChunks (ig : List String) (vk : Kind) :
    List (MapKey × Value) → List (MapKey × Except HashErr (List Nat))
  | [] => []
  | (k, v) :: es => (k, writeSingularValue ig vk v) :: mapChunks ig vk es
termination_by es => (sizeOf es, 0)

/-- `pbHasher.writeSingularValue`: the kind-to-bytes table; nested
messages recurse with no length prefix; the `default` branch (reachable
only for `group`) fails with the unsupported-kind error. -/
def writeSingularValue (ig : List String) (k : Kind) (v : Value) :
    Except HashErr (List Nat) :=
  match k, v with
  | .message, .vMsg m => hashMsg ig m
  | .message, _ => .ok []
  | .group, _ => .error (.unsupportedKind .group)
  | k, v => .ok (scalarEncode k v)
termination_by (sizeOf v, 1)

end

/-! ### Top-level entry points (`Sum64`, `Sum`, `doHash`) -/

/-- The digest sink (`hash.Hash`).  The only property of the sink the
library inspects is whether it also implements `hash.Hash64`; its
outputs are functions of the byte stream written to it, which the model
returns directly. -/
structure Sink where
  is64 : Bool

/-- `doHash`: rejects a null message, then runs the traversal.  (The
`ProtoReflect() == nil` and `msg.Descriptor() == nil` re-checks of the
Go code are unreachable for any actual message value and have no model
counterpart; the default-hasher selection picks `xxhash`, a 64-bit
sink.)  The returned bytes are the stream fed to the sink. -/
def doHash (pb : Option Msg) (ig : List String) : Except HashErr (List Nat) :=
  match pb with
  | none => .error .invalidMsg
  | some m => hashMsg ig m

/-- `Sum64`: hash, then require the sink to support 64-bit extraction.
The result stands for `h64.Sum64()`, a function of the byte stream. -/
def Sum64 (pb : Option Msg) (ig : List String) (sink : Sink) : Except HashErr (List Nat) :=
  match doHash pb ig with
  | .error e => .error e
  | .ok bytes => if sink.is64 then .ok bytes else .error .unsupported

/-- `Sum`: hash and append the digest to the caller's buffer; the model
returns the buffer followed by the byte stream the digest is computed
from. -/
def Sum (b : List Nat) (pb : Option Msg) (ig : List String) :
    Except HashErr (List Nat) :=
  match doHash pb ig with
  | .error e => .error e
  | .ok bytes => .ok (b ++ bytes)

/-! ### The generated per-type hashing routines
(`codegen` in `internal/generator/generator.go`)

`genHelperForMsg` emits, for each message type, a function
`<fqn>_hashpb_sum(m, hasher, ignore)` whose body is fixed at generation
time: the declared fields sorted by field number; each non-synthetic
oneof handled once, at the position of its lowest-numbered member, by a
type switch on the populated member; every other field guarded only by
the ignore check — singular scalar fields are written unconditionally
(the accessor's zero value when unset), list and map fields are guarded
by `len > 0`, message fields by a nil check.  `genHashMsg` below is the
runtime semantics of that generated code on a model message. -/

/-- What generation-time knowledge plus the concrete instance determine
for one declared field: its descriptor, whether it is populated, and the
bytes its (unconditional) `genField` body would write. -/
structure GChunk where
  fd : FieldDescriptor
  populated : Bool
  bytes : List Nat

/-- The `switch t := m.GetOneof().(type)` of `genOneOfField`: the bytes
of the populated member of the oneof, if any. -/
def genMemberBytes (all : List GChunk) (oname : String) : List Nat :=
  match all.find? (fun c =>
      (match c.fd.containingOneof with
       | some od => od.fullName = oname && !od.synthetic
       | none => false) && c.populated) with
  | some c => c.bytes
  | none => []

/-- The statement sequence of the generated function: fields in sorted
order, oneofs deduplicated (emitted at first occurrence), each guarded
by the runtime ignore check (`genField` checks the field's
fully-qualified name; `genOneOfField` checks only the oneof's). -/
def genWalk (ig : List String) (all : List GChunk) :
    List GChunk → List String → List Nat
  | [], _ => []
  | c :: rest, done =>
      match c.fd.containingOneof with
      | some od =>
          if od.synthetic then
            (if ig.contains c.fd.fullName then [] else c.bytes) ++ genWalk ig all rest done
          else if done.contains od.fullName then genWalk ig all rest done
          else
            (if ig.contains od.fullName then [] else genMemberBytes all od.fullName) ++
              genWalk ig all rest (od.fullName :: done)
      | none =>
          (if ig.contains c.fd.fullName then [] else c.bytes) ++ genWalk ig all rest done

/-- `genHelperForMsg`'s generation-time `sort.Slice` by field number,
followed by the emitted statements. -/
def genAssemble (ig : List String) (chunks : List GChunk) : List Nat :=
  genWalk ig chunks (insertionSort (fun a b => a.fd.number < b.fd.number) chunks) []

/-- `genMapField`, boolean-keyed case: one lookup for `false`, then one
for `true` (no length guard). -/
def genBoolMap (chunked : List (MapKey × List Nat)) : List Nat :=
  (match chunked.find? (fun e => e.1 = .kBool false) with
   | some e => e.2
   | none => []) ++
  (match chunked.find? (fun e => e.1 = .kBool true) with
   | some e => e.2
   | none => [])

/-- `genMapField`, general case: `slices.Sorted(maps.Keys(m))` — keys
ascending by the Go `<` on the key type — then each entry's value. -/
def genSortedMap (chunked : List (MapKey × List Nat)) : List Nat :=
  ((insertionSort (fun a b => cmpLtB a.1 b.1) chunked).map Prod.snd).flatten

mutual

/-- Runtime behaviour of the generated `<fqn>_hashpb_sum` function. -/
def genHashMsg (ig : List String) (m : Msg) : List Nat :=
  genAssemble ig (genChunks ig m)
termination_by (sizeOf m, 1)

/-- Per-declared-field data for the generated function. -/
def genChunks (ig : List String) : List Field → List GChunk
  | [] => []
  | .mk fd val :: fs =>
      ⟨fd, (Field.mk fd val).has, genFieldBytes ig fd val⟩ :: genChunks ig fs
termination_by fs => (sizeOf fs, 0)

/-- The body `genField` emits for one field (cardinality is known at
generation time): lists behind a `len > 0` guard, maps via
`genMapField`, message fields behind a nil check, and every other
singular field written unconditionally from its accessor (which yields
the kind's zero value when the field is unset). -/
def genFieldBytes (ig : List String) (fd : FieldDescriptor) (val : Option FieldValue) :
    List Nat :=
  match fd.card, val with
  | .list, some (.list vs) => if vs.isEmpty then [] else genListBytes ig fd.kind vs
  | .list, _ => []
  | .mapc, some (.mapv es) =>
      if fd.mapKeyKind = .bool then genBoolMap (genMapChunks ig fd.mapValueKind es)
      else if es.isEmpty then [] else genSortedMap (genMapChunks ig fd.mapValueKind es)
  | .mapc, _ => []
  | .singular, some (.singular v) => genSingularBytes ig fd.kind v
  | .singular, _ =>
      match fd.kind with
      | .message => []
      | k => scalarEncode k (defaultValue k)
termination_by (sizeOf val, 1)

/-- The loop body of the generated list handling: each element in list
order. -/
def genListBytes (ig : List String) (k : Kind) : List Value → List Nat
  | [] => []
  | v :: vs => genSingularBytes ig k v ++ genListBytes ig k vs
termination_by vs => (sizeOf vs, 1)

/-- The value bytes of each map entry (order irrelevant: `genBoolMap`
looks up by key and `genSortedMap` sorts). -/
def genMapChunks (ig : List String) (vk : Kind) :
    List (MapKey × Value) → List (MapKey × List Nat)
  | [] => []
  | (k, v) :: es => (k, genSingularBytes ig vk v) :: genMapChunks ig vk es
termination_by es => (sizeOf es, 0)

/-- `genSingularField`: the shared scalar table, with message values
recursing into the nested type's generated function behind a nil
check. -/
def genSingularBytes (ig : List String) (k : Kind) (v : Value) : List Nat :=
  match k, v with
  | .message, .vMsg m => genHashMsg ig m
  | .message, _ => []
  | k, v => scalarEncode k v
termination_by (sizeOf v, 1)

end

/-! ### Auxiliary definitions used by the statements and proofs -/

/-- The entry order `writeMapValue` sorts by: `compareMapKeys` on the
first components. -/
def keyLt (x y : MapKey × α) : Bool := cmpLtB x.1 y.1

/-- The value sequence of a map read in sorted key order. -/
def sortedMapValues (es : List (MapKey × Value)) : List Value :=
  (insertionSort keyLt es).map Prod.snd

/-- Concatenation of encode results, first error wins (the value-only
part of `concatResults`). -/
def concatVals : List (Except HashErr (List Nat)) → Except HashErr (List Nat)
  | [] => .ok []
  | .error e :: _ => .error e
  | .ok bs :: rest =>
      match concatVals rest with
      | .error e => .error e
      | .ok s => .ok (bs ++ s)

/-- Whether an error is a `wrapped` one (every error `pbHasher.hash`
returns carries the failing field's fully-qualified name). -/
def HashErr.isWrapped : HashErr → Bool
  | .wrapped _ _ => true
  | _ => false

/-! ### Concrete schemas and instances used in the closed statements -/

/-- A message type with a single `int32` field. -/
def fdSingleInt32 : FieldDescriptor := { number := 1, fullName := "test.Single.i", kind := .int32 }

/-- A `string` field with number 1 and an `int32` field with number 2. -/
def fdStrOne : FieldDescriptor := { number := 1, fullName := "test.Pair.s", kind := .string }

def fdIntTwo : FieldDescriptor := { number := 2, fullName := "test.Pair.i", kind := .int32 }

/-- The §8.6 example: `string` field `"ab"` (bytes 97 98), `int32`
field `5`. -/
def examplePairMsg : Msg :=
  [.mk fdStrOne (some (.singular (.vStr [97, 98]))),
   .mk fdIntTwo (some (.singular (.vInt 5)))]

/-- A message-typed field (for the no-length-prefix example). -/
def fdNestedOne : FieldDescriptor := { number := 1, fullName := "test.Outer.m", kind := .message }

/-- Oneof schema whose member numbers interleave with a plain field:
members `a` (number 1) and `c` (number 3) of oneof `o`, plain field `b`
(number 2). -/
def fdOneofA : FieldDescriptor :=
  { number := 1, fullName := "test.M4.a", kind := .int32, containingOneof := some ⟨"test.M4.o", false⟩ }

def fdPlainB : FieldDescriptor := { number := 2, fullName := "test.M4.b", kind := .int32 }

def fdOneofC : FieldDescriptor :=
  { number := 3, fullName := "test.M4.c", kind := .int32, containingOneof := some ⟨"test.M4.o", false⟩ }

/-- Instance with oneof member `c = 7` set and `b = 1`. -/
def interleavedOneofMsg : Msg :=
  [.mk fdOneofA none,
   .mk fdPlainB (some (.singular (.vInt 1))),
   .mk fdOneofC (some (.singular (.vInt 7)))]

/-- A "leaf" message type exercising scalar, string, bool, map and list
fields, fully populated. -/
def fdLeafI : FieldDescriptor := { number := 1, fullName := "test.Leaf.i", kind := .int32 }

def fdLeafS : FieldDescriptor := { number := 2, fullName := "test.Leaf.s", kind := .string }

def fdLeafB : FieldDescriptor := { number := 3, fullName := "test.Leaf.b", kind := .bool }

def fdLeafM : FieldDescriptor :=
  { number := 4, fullName := "test.Leaf.m", kind := .string, card := .mapc, mapKeyKind := .int64, mapValueKind := .string }

def fdLeafR : FieldDescriptor :=
  { number := 5, fullName := "test.Leaf.r", kind := .int32, card := .list }

def leafMsg : Msg :=
  [.mk fdLeafI (some (.singular (.vInt 5))),
   .mk fdLeafS (some (.singular (.vStr [97, 98]))),
   .mk fdLeafB (some (.singular (.vBool true))),
   .mk fdLeafM (some (.mapv [(.kInt64 2, .vStr [121]), (.kInt64 1, .vStr [120])])),
   .mk fdLeafR (some (.list [.vInt 1, .vInt 2]))]

/-- The self-nested message type (`NestedTestAllTypes`): `child` is a
message of the same type, `payload` is a leaf. -/
def fdNestChild : FieldDescriptor := { number := 1, fullName := "test.Nest.child", kind := .message }

def fdNestPayload : FieldDescriptor := { number := 2, fullName := "test.Nest.payload", kind := .message }

/-- `n + 1` levels of self-nesting with identical fully-populated leaf
payloads at each level (the innermost `child` is unset). -/
def nestedMsg : Nat → Msg
  | 0 => [.mk fdNestChild none, .mk fdNestPayload (some (.singular (.vMsg leafMsg)))]
  | n + 1 =>
      [.mk fdNestChild (some (.singular (.vMsg (nestedMsg n)))),
       .mk fdNestPayload (some (.singular (.vMsg leafMsg)))]

/-- A `group`-kind field (the kind the encoding table has no rule
for). -/
def fdGroupOne : FieldDescriptor := { number := 1, fullName := "test.G.g", kind := .group }

/-- A proto3 `optional int32` field: presence-tracking, carried by a
synthetic oneof. -/
def fdOptInt32 : FieldDescriptor :=
  { number := 1, fullName := "test.Opt.i", kind := .int32, containingOneof := some ⟨"test.Opt._i", true⟩ }

/-- The per-field collection step of `pbHasher.hash` as a function of
one field: `none` exactly when the field is skipped (ignored or not
populated). -/
def chunkOf (ig : List String) (f : Field) : Option Chunk :=
  if shouldIgnore ig f.fd || !f.has then none
  else some ⟨f.fd.number, f.fd.fullName, writeFieldValue ig f.fd f.val⟩

/-! ### Generic facts about the insertion-sort model of `sort.Slice` -/

theorem orderedInsert_perm (lt : α → α → Bool) (a : α) (l : List α) :
    (orderedInsert lt a l).Perm (a :: l) := by
  induction l with
  | nil => simp [orderedInsert]
  | cons b l ih =>
      by_cases h : lt a b
      · simp [orderedInsert, h]
      · simp only [orderedInsert, h, Bool.false_eq_true, if_false]
        exact ((ih.cons b).trans (List.Perm.swap a b l))

theorem insertionSort_perm (lt : α → α → Bool) (l : List α) :
    (insertionSort lt l).Perm l := by
  induction l with
  | nil => simp [insertionSort]
  | cons a l ih => exact (orderedInsert_perm lt a _).trans (ih.cons a)

theorem mem_orderedInsert (lt : α → α → Bool) {a x : α} {l : List α} :
    x ∈ orderedInsert lt a l ↔ x = a ∨ x ∈ l := by
  have := (orderedInsert_perm lt a l).mem_iff (a := x)
  simpa using this

theorem mem_insertionSort (lt : α → α → Bool) {x : α} {l : List α} :
    x ∈ insertionSort lt l ↔ x ∈ l :=
  (insertionSort_perm lt l).mem_iff

/-- Inserting into a chain that is pairwise "not greater" preserves the
chain, provided the comparator is asymmetric and transitive on the
elements involved. -/
theorem orderedInsert_pairwise (G : α → Prop) (lt : α → α → Bool)
    (hasym : ∀ x y, G x → G y → lt x y = true → lt y x = false)
    (htrans : ∀ x y z, G x → G y → G z → lt x y = true → lt y z = true → lt x z = true)
    (a : α) (l : List α) (hGa : G a) (hGl : ∀ x ∈ l, G x)
    (hp : l.Pairwise (fun x y => lt y x = false)) :
    (orderedInsert lt a l).Pairwise (fun x y => lt y x = false) := by
  induction l with
  | nil => simp [orderedInsert]
  | cons b l ih =>
      have hGb : G b := hGl b (by simp)
      have hGl' : ∀ x ∈ l, G x := fun x hx => hGl x (by simp [hx])
      by_cases h : lt a b
      · simp only [orderedInsert, h, if_true]
        refine List.Pairwise.cons ?_ hp
        intro y hy
        rcases List.mem_cons.mp hy with rfl | hy
        · exact hasym a y hGa hGb h
        · by_contra hya
          have hya' : lt y a = true := by
            cases hcase : lt y a with
            | true => rfl
            | false => exact absurd hcase hya
          have : lt y b = true := htrans y a b (hGl' y hy) hGa hGb hya' h
          have hyb : lt y b = false := (List.pairwise_cons.mp hp).1 y hy
          rw [this] at hyb
          exact Bool.noConfusion hyb
      · simp only [orderedInsert, h, Bool.false_eq_true, if_false]
        refine List.Pairwise.cons ?_ (ih hGl' (List.pairwise_cons.mp hp).2)
        intro y hy
        rcases (mem_orderedInsert lt).mp hy with rfl | hy
        · cases hcase : lt y b with
          | true => exact absurd hcase (by simp [h])
          | false => rfl
        · exact (List.pairwise_cons.mp hp).1 y hy

theorem insertionSort_pairwise (G : α → Prop) (lt : α → α → Bool)
    (hasym : ∀ x y, G x → G y → lt x y = true → lt y x = false)
    (htrans : ∀ x y z, G x → G y → G z → lt x y = true → lt y z = true → lt x z = true)
    (l : List α) (hGl : ∀ x ∈ l, G x) :
    (insertionSort lt l).Pairwise (fun x y => lt y x = false) := by
  induction l with
  | nil => simp [insertionSort]
  | cons a l ih =>
      have hGl' : ∀ x ∈ l, G x := fun x hx => hGl x (by simp [hx])
      exact orderedInsert_pairwise G lt hasym htrans a _ (hGl a (by simp))
        (fun x hx => hGl' x ((mem_insertionSort lt).mp hx)) (ih hGl')

/-- Two sorted permutations of each other are equal, provided any two
distinct members are comparable. -/
theorem pairwise_perm_eq (lt : α → α → Bool) :
    ∀ l₁ l₂ : List α, l₁.Perm l₂ →
      (∀ x ∈ l₁, ∀ y ∈ l₁, x ≠ y → lt x y = true ∨ lt y x = true) →
      l₁.Pairwise (fun x y => lt y x = false) →
      l₂.Pairwise (fun x y => lt y x = false) → l₁ = l₂
  | [], l₂, hperm, _, _, _ => by simpa using hperm.nil_eq
  | a :: t₁, l₂, hperm, hconn, hp₁, hp₂ => by
      have ha₂ : a ∈ l₂ := hperm.mem_iff.mp (by simp)
      cases l₂ with
      | nil => exact absurd ha₂ (by simp)
      | cons b t₂ =>
          by_cases hab : a = b
          · subst hab
            have ht : t₁.Perm t₂ := hperm.cons_inv
            have := pairwise_perm_eq lt t₁ t₂ ht
              (fun x hx y hy hxy => hconn x (by simp [hx]) y (by simp [hy]) hxy)
              (List.pairwise_cons.mp hp₁).2 (List.pairwise_cons.mp hp₂).2
            rw [this]
          · exfalso
            have hb₁ : b ∈ a :: t₁ := hperm.mem_iff.mpr (by simp)
            have hbt₁ : b ∈ t₁ := by
              rcases List.mem_cons.mp hb₁ with h | h
              · exact absurd h.symm hab
              · exact h
            have hat₂ : a ∈ t₂ := by
              rcases List.mem_cons.mp ha₂ with h | h
              · exact absurd h hab
              · exact h
            have h₁ : lt b a = false := (List.pairwise_cons.mp hp₁).1 b hbt₁
            have h₂ : lt a b = false := (List.pairwise_cons.mp hp₂).1 a hat₂
            rcases hconn a (by simp) b (by simp [hbt₁]) hab with h | h
            · rw [h] at h₂; exact Bool.noConfusion h₂
            · rw [h] at h₁; exact Bool.noConfusion h₁

/-! ### Properties of the map-key comparator -/

theorem bytesLt_asymm : ∀ s t : List Nat, bytesLt s t = true → bytesLt t s = false
  | [], [], h => by simp [bytesLt] at h
  | [], _ :: _, _ => by simp [bytesLt]
  | _ :: _, [], h => by simp [bytesLt] at h
  | a :: as, b :: bs, h => by
      by_cases hab : a < b
      · simp [bytesLt, Nat.lt_asymm hab, Nat.ne_of_gt hab, hab]
      · by_cases hba : b < a
        · simp [bytesLt, hab, hba] at h
        · have : a = b := Nat.le_antisymm (Nat.le_of_not_lt hba) (Nat.le_of_not_lt hab)
          subst this
          simp only [bytesLt, Nat.lt_irrefl, if_false] at h ⊢
          exact bytesLt_asymm as bs h

theorem bytesLt_trans : ∀ s t u : List Nat,
    bytesLt s t = true → bytesLt t u = true → bytesLt s u = true
  | [], [], _, h, _ => by simp [bytesLt] at h
  | [], _ :: _, [], _, h => by simp [bytesLt] at h
  | [], _ :: _, _ :: _, _, _ => by simp [bytesLt]
  | _ :: _, [], _, h, _ => by simp [bytesLt] at h
  | _ :: _, _ :: _, [], _, h => by simp [bytesLt] at h
  | a :: as, b :: bs, c :: cs, h₁, h₂ => by
      by_cases hab : a < b <;> by_cases hbc : b < c
      · have : a < c := Nat.lt_trans hab hbc
        simp [bytesLt, this]
      · by_cases hcb : c < b
        · simp [bytesLt, hbc, hcb] at h₂
        · have : b = c := Nat.le_antisymm (Nat.le_of_not_lt hcb) (Nat.le_of_not_lt hbc)
          subst this
          simp [bytesLt, hab]
      · by_cases hba : b < a
        · simp [bytesLt, hab, hba] at h₁
        · have : a = b := Nat.le_antisymm (Nat.le_of_not_lt hba) (Nat.le_of_not_lt hab)
          subst this
          simp [bytesLt, hbc]
      · by_cases hba : b < a
        · simp [bytesLt, hab, hba] at h₁
        · have hab' : a = b := Nat.le_antisymm (Nat.le_of_not_lt hba) (Nat.le_of_not_lt hab)
          subst hab'
          by_cases hcb : c < a
          · simp [bytesLt, hbc, hcb] at h₂
          · have : a = c := Nat.le_antisymm (Nat.le_of_not_lt hcb) (Nat.le_of_not_lt hbc)
            subst this
            simp only [bytesLt, Nat.lt_irrefl, if_false] at h₁ h₂ ⊢
            exact bytesLt_trans as bs cs h₁ h₂

theorem bytesLt_conn : ∀ s t : List Nat, s ≠ t → bytesLt s t = true ∨ bytesLt t s = true
  | [], [], h => absurd rfl h
  | [], _ :: _, _ => by simp [bytesLt]
  | _ :: _, [], _ => by simp [bytesLt]
  | a :: as, b :: bs, h => by
      by_cases hab : a < b
      · exact Or.inl (by simp [bytesLt, hab])
      · by_cases hba : b < a
        · exact Or.inr (by simp [bytesLt, hba])
        · have heq : a = b := Nat.le_antisymm (Nat.le_of_not_lt hba) (Nat.le_of_not_lt hab)
          subst heq
          have htail : as ≠ bs := fun hc => h (by rw [hc])
          simpa [bytesLt] using bytesLt_conn as bs htail

/-- The comparator's type switch is total whenever both keys hold the
same permitted kind: the `panic` branch is unreachable. -/
theorem compareMapKeys_isSome (a b : MapKey) (htag : a.tag = b.tag) (hperm : a.tag ≤ 5) :
    (compareMapKeys a b).isSome := by
  cases a <;> cases b <;>
    simp_all [MapKey.tag, compareMapKeys, MapKey.boolV, MapKey.intV, MapKey.uintV, MapKey.strV]

theorem cmpLtB_bool (x y : Bool) : cmpLtB (.kBool x) (.kBool y) = (!x && y) := rfl

theorem cmpLtB_int32 (i j : Int) : cmpLtB (.kInt32 i) (.kInt32 j) = decide (i < j) := rfl

theorem cmpLtB_int64 (i j : Int) : cmpLtB (.kInt64 i) (.kInt64 j) = decide (i < j) := rfl

theorem cmpLtB_uint32 (m n : Nat) : cmpLtB (.kUint32 m) (.kUint32 n) = decide (m < n) := rfl

theorem cmpLtB_uint64 (m n : Nat) : cmpLtB (.kUint64 m) (.kUint64 n) = decide (m < n) := rfl

theorem cmpLtB_string (s t : List Nat) : cmpLtB (.kString s) (.kString t) = bytesLt s t := rfl

theorem cmpLtB_asymm (a b : MapKey) (htag : a.tag = b.tag) (hperm : a.tag ≤ 5)
    (h : cmpLtB a b = true) : cmpLtB b a = false := by
  cases a <;> cases b <;> simp only [MapKey.tag] at htag hperm <;> try omega
  case kBool.kBool x y => revert h; cases x <;> cases y <;> decide
  case kInt32.kInt32 i j =>
    simp only [cmpLtB_int32, decide_eq_true_eq] at h
    simp only [cmpLtB_int32, decide_eq_false_iff_not]
    omega
  case kInt64.kInt64 i j =>
    simp only [cmpLtB_int64, decide_eq_true_eq] at h
    simp only [cmpLtB_int64, decide_eq_false_iff_not]
    omega
  case kUint32.kUint32 m n =>
    simp only [cmpLtB_uint32, decide_eq_true_eq] at h
    simp only [cmpLtB_uint32, decide_eq_false_iff_not]
    omega
  case kUint64.kUint64 m n =>
    simp only [cmpLtB_uint64, decide_eq_true_eq] at h
    simp only [cmpLtB_uint64, decide_eq_false_iff_not]
    omega
  case kString.kString s t =>
    simp only [cmpLtB_string] at h ⊢
    exact bytesLt_asymm s t h

theorem cmpLtB_trans (a b c : MapKey) (hab : a.tag = b.tag) (hbc : b.tag = c.tag)
    (hperm : a.tag ≤ 5) (h₁ : cmpLtB a b = true) (h₂ : cmpLtB b c = true) :
    cmpLtB a c = true := by
  cases a <;> cases b <;> cases c <;> simp only [MapKey.tag] at hab hbc hperm <;> try omega
  case kBool.kBool.kBool x y z => revert h₁ h₂; cases x <;> cases y <;> cases z <;> decide
  case kInt32.kInt32.kInt32 i j k =>
    simp only [cmpLtB_int32, decide_eq_true_eq] at h₁ h₂ ⊢
    omega
  case kInt64.kInt64.kInt64 i j k =>
    simp only [cmpLtB_int64, decide_eq_true_eq] at h₁ h₂ ⊢
    omega
  case kUint32.kUint32.kUint32 m n p =>
    simp only [cmpLtB_uint32, decide_eq_true_eq] at h₁ h₂ ⊢
    omega
  case kUint64.kUint64.kUint64 m n p =>
    simp only [cmpLtB_uint64, decide_eq_true_eq] at h₁ h₂ ⊢
    omega
  case kString.kString.kString s t u =>
    simp only [cmpLtB_string] at h₁ h₂ ⊢
    exact bytesLt_trans s t u h₁ h₂

theorem cmpLtB_conn (a b : MapKey) (htag : a.tag = b.tag) (hperm : a.tag ≤ 5)
    (hne : a ≠ b) : cmpLtB a b = true ∨ cmpLtB b a = true := by
  cases a <;> cases b <;> simp only [MapKey.tag] at htag hperm <;> try omega
  case kBool.kBool x y => revert hne; cases x <;> cases y <;> decide
  case kInt32.kInt32 i j =>
    have : i ≠ j := fun hc => hne (by rw [hc])
    simp only [cmpLtB_int32, decide_eq_true_eq]
    omega
  case kInt64.kInt64 i j =>
    have : i ≠ j := fun hc => hne (by rw [hc])
    simp only [cmpLtB_int64, decide_eq_true_eq]
    omega
  case kUint32.kUint32 m n =>
    have : m ≠ n := fun hc => hne (by rw [hc])
    simp only [cmpLtB_uint32, decide_eq_true_eq]
    omega
  case kUint64.kUint64 m n =>
    have : m ≠ n := fun hc => hne (by rw [hc])
    simp only [cmpLtB_uint64, decide_eq_true_eq]
    omega
  case kString.kString s t =>
    have : s ≠ t := fun hc => hne (by rw [hc])
    simp only [cmpLtB_string]
    exact bytesLt_conn s t this

/-! ### The monadic sort agrees with the pure sort on well-typed keys -/

theorem insertKeyM_ok (a : MapKey × α) (l : List (MapKey × α))
    (h : ∀ b ∈ l, (compareMapKeys a.1 b.1).isSome) :
    insertKeyM a l = .ok (orderedInsert keyLt a l) := by
  induction l with
  | nil => rfl
  | cons b l ih =>
      have hb := h b (by simp)
      cases hcmp : compareMapKeys a.1 b.1 with
      | none => rw [hcmp] at hb; simp at hb
      | some r =>
          have hlt : keyLt a b = r := by simp [keyLt, cmpLtB, hcmp]
          cases r with
          | true => simp [insertKeyM, hcmp, orderedInsert, hlt]
          | false =>
              have := ih (fun b hb => h b (by simp [hb]))
              simp [insertKeyM, hcmp, orderedInsert, hlt, this]

theorem sortByKeyM_ok (t : Nat) (ht : t ≤ 5) (l : List (MapKey × α))
    (htag : ∀ e ∈ l, e.1.tag = t) :
    sortByKeyM l = .ok (insertionSort keyLt l) := by
  induction l with
  | nil => rfl
  | cons a l ih =>
      have ihl := ih (fun e he => htag e (by simp [he]))
      have hins : insertKeyM a (insertionSort keyLt l) =
          .ok (orderedInsert keyLt a (insertionSort keyLt l)) := by
        refine insertKeyM_ok a _ (fun b hb => ?_)
        have hbl : b ∈ l := (mem_insertionSort keyLt).mp hb
        have h₁ : a.1.tag = t := htag a (by simp)
        have h₂ : b.1.tag = t := htag b (by simp [hbl])
        exact compareMapKeys_isSome a.1 b.1 (by rw [h₁, h₂]) (by rw [h₁]; exact ht)
      simp [sortByKeyM, ihl, insertionSort, hins]

/-! ### Shape lemmas for the traversal functions -/

theorem mapChunks_eq_map (ig : List String) (vk : Kind) (es : List (MapKey × Value)) :
    mapChunks ig vk es = es.map (fun e => (e.1, writeSingularValue ig vk e.2)) := by
  induction es with
  | nil => simp [mapChunks]
  | cons e es ih => cases e; simp [mapChunks, ih]

theorem concatResults_eq_concatVals (l : List (MapKey × Except HashErr (List Nat))) :
    concatResults l = concatVals (l.map Prod.snd) := by
  induction l with
  | nil => rfl
  | cons e l ih =>
      rcases e with ⟨k, r⟩
      cases r with
      | error er => simp [concatResults, concatVals]
      | ok bs => simp [concatResults, concatVals, ih]

theorem concatVals_error (l : List (Except HashErr (List Nat))) (e : HashErr)
    (h : concatVals l = .error e) : Except.error e ∈ l := by
  induction l with
  | nil => simp [concatVals] at h
  | cons r l ih =>
      cases r with
      | error er =>
          simp only [concatVals, Except.error.injEq] at h
          subst h
          simp
      | ok bs =>
          simp only [concatVals] at h
          cases hrec : concatVals l with
          | error er =>
              rw [hrec] at h
              simp only [Except.error.injEq] at h
              subst h
              simp [ih hrec]
          | ok s =>
              rw [hrec] at h
              simp at h

theorem concatResults_error (l : List (MapKey × Except HashErr (List Nat))) (e : HashErr)
    (h : concatResults l = .error e) : ∃ x ∈ l, x.2 = .error e := by
  rw [concatResults_eq_concatVals] at h
  obtain hmem := concatVals_error _ _ h
  obtain ⟨x, hx, hxe⟩ := List.mem_map.mp hmem
  exact ⟨x, hx, hxe⟩

/-- Sorting by key commutes with any transformation that preserves the
keys. -/
theorem orderedInsert_map_keyLt (f : (MapKey × β) → (MapKey × γ)) (hf : ∀ x, (f x).1 = x.1)
    (a : MapKey × β) (l : List (MapKey × β)) :
    orderedInsert keyLt (f a) (l.map f) = (orderedInsert keyLt a l).map f := by
  induction l with
  | nil => simp [orderedInsert]
  | cons b l ih =>
      have hk : keyLt (f a) (f b) = keyLt a b := by simp [keyLt, hf]
      by_cases h : keyLt a b
      · simp [orderedInsert, hk, h]
      · simp [orderedInsert, hk, h, ih]

theorem insertionSort_map_keyLt (f : (MapKey × β) → (MapKey × γ)) (hf : ∀ x, (f x).1 = x.1)
    (l : List (MapKey × β)) :
    insertionSort keyLt (l.map f) = (insertionSort keyLt l).map f := by
  induction l with
  | nil => simp [insertionSort]
  | cons a l ih => simp [insertionSort, ih, orderedInsert_map_keyLt f hf]

/-- The normal form of `writeMapValue` on a map whose keys all hold one
permitted kind: sort succeeds and the entries' value bytes are
concatenated in sorted key order. -/
theorem writeMapValue_eq (ig : List String) (vk : Kind) (es : List (MapKey × Value))
    (t : Nat) (ht : t ≤ 5) (htag : ∀ e ∈ es, e.1.tag = t) :
    writeMapValue ig vk es =
      if es.length = 0 then .ok []
      else concatResults (insertionSort keyLt (mapChunks ig vk es)) := by
  have htag' : ∀ e ∈ mapChunks ig vk es, e.1.tag = t := by
    rw [mapChunks_eq_map]
    intro e he
    obtain ⟨x, hx, rfl⟩ := List.mem_map.mp he
    exact htag x hx
  rw [writeMapValue, sortByKeyM_ok t ht _ htag']

/-- `writeMapValue` is invariant under permutation of the entry list,
for any well-formed map (single permitted key kind, no duplicate
keys). -/
theorem writeMapValue_perm (ig : List String) (vk : Kind) (e₁ e₂ : List (MapKey × Value))
    (hperm : e₁.Perm e₂) (t : Nat) (ht : t ≤ 5) (htag : ∀ e ∈ e₁, e.1.tag = t)
    (hnd : (e₁.map Prod.fst).Nodup) :
    writeMapValue ig vk e₁ = writeMapValue ig vk e₂ := by
  have htag₂ : ∀ e ∈ e₂, e.1.tag = t := fun e he => htag e (hperm.mem_iff.mpr he)
  have hlen : e₁.length = e₂.length := hperm.length_eq
  rw [writeMapValue_eq ig vk e₁ t ht htag, writeMapValue_eq ig vk e₂ t ht htag₂, ← hlen]
  by_cases hz : e₁.length = 0
  · simp [hz]
  · simp only [hz, if_false]
    set f : (MapKey × Value) → MapKey × Except HashErr (List Nat) :=
      fun e => (e.1, writeSingularValue ig vk e.2) with hf
    have hkey : ∀ x, (f x).1 = x.1 := fun x => rfl
    have hc₁ : mapChunks ig vk e₁ = e₁.map f := mapChunks_eq_map ig vk e₁
    have hc₂ : mapChunks ig vk e₂ = e₂.map f := mapChunks_eq_map ig vk e₂
    have hcperm : (mapChunks ig vk e₁).Perm (mapChunks ig vk e₂) := by
      rw [hc₁, hc₂]; exact hperm.map f
    have hctag : ∀ x ∈ mapChunks ig vk e₁, x.1.tag = t := by
      rw [hc₁]
      intro x hx
      obtain ⟨y, hy, rfl⟩ := List.mem_map.mp hx
      exact htag y hy
    have hcnd : ((mapChunks ig vk e₁).map Prod.fst).Nodup := by
      rw [hc₁, List.map_map]
      have : (Prod.fst ∘ f) = (Prod.fst : (MapKey × Value) → MapKey) := by
        funext x; rfl
      rw [this]
      exact hnd
    have hG : ∀ x ∈ mapChunks ig vk e₁, x.1.tag = t := hctag
    have hasym : ∀ (x y : MapKey × Except HashErr (List Nat)),
        x.1.tag = t → y.1.tag = t → keyLt x y = true → keyLt y x = false := by
      intro x y hx hy h
      exact cmpLtB_asymm x.1 y.1 (by rw [hx, hy]) (by rw [hx]; exact ht) h
    have htrans : ∀ (x y z : MapKey × Except HashErr (List Nat)),
        x.1.tag = t → y.1.tag = t → z.1.tag = t →
        keyLt x y = true → keyLt y z = true → keyLt x z = true := by
      intro x y z hx hy hz h₁ h₂
      exact cmpLtB_trans x.1 y.1 z.1 (by rw [hx, hy]) (by rw [hy, hz]) (by rw [hx]; exact ht) h₁ h₂
    have hp₁ := insertionSort_pairwise (fun x => x.1.tag = t) keyLt hasym htrans
      (mapChunks ig vk e₁) hG
    have hp₂ := insertionSort_pairwise (fun x => x.1.tag = t) keyLt hasym htrans
      (mapChunks ig vk e₂) (fun x hx => hctag x (hcperm.mem_iff.mpr hx))
    have hsperm : (insertionSort keyLt (mapChunks ig vk e₁)).Perm
        (insertionSort keyLt (mapChunks ig vk e₂)) :=
      ((insertionSort_perm keyLt _).trans hcperm).trans (insertionSort_perm keyLt _).symm
    have hconn : ∀ x ∈ insertionSort keyLt (mapChunks ig vk e₁),
        ∀ y ∈ insertionSort keyLt (mapChunks ig vk e₁),
        x ≠ y → keyLt x y = true ∨ keyLt y x = true := by
      intro x hx y hy hxy
      have hx' : x ∈ mapChunks ig vk e₁ := (mem_insertionSort keyLt).mp hx
      have hy' : y ∈ mapChunks ig vk e₁ := (mem_insertionSort keyLt).mp hy
      have hkne : x.1 ≠ y.1 := by
        intro hk
        exact hxy (List.inj_on_of_nodup_map hcnd hx' hy' hk)
      exact cmpLtB_conn x.1 y.1 (by rw [hG x hx', hG y hy']) (by rw [hG x hx']; exact ht) hkne
    rw [pairwise_perm_eq keyLt _ _ hsperm hconn hp₁ hp₂]

/-- `writeMapValue` writes only the entry values, read in sorted key
order: two maps with the same sorted value sequence (and both
well-formed) produce identical bytes. -/
theorem writeMapValue_values (ig : List String) (vk : Kind) (e₁ e₂ : List (MapKey × Value))
    (t₁ t₂ : Nat) (ht₁ : t₁ ≤ 5) (ht₂ : t₂ ≤ 5)
    (htag₁ : ∀ e ∈ e₁, e.1.tag = t₁) (htag₂ : ∀ e ∈ e₂, e.1.tag = t₂)
    (hv : sortedMapValues e₁ = sortedMapValues e₂) :
    writeMapValue ig vk e₁ = writeMapValue ig vk e₂ := by
  have hlen : e₁.length = e₂.length := by
    have h₁ : (sortedMapValues e₁).length = e₁.length := by
      simp [sortedMapValues, (insertionSort_perm keyLt e₁).length_eq]
    have h₂ : (sortedMapValues e₂).length = e₂.length := by
      simp [sortedMapValues, (insertionSort_perm keyLt e₂).length_eq]
    rw [← h₁, ← h₂, hv]
  rw [writeMapValue_eq ig vk e₁ t₁ ht₁ htag₁, writeMapValue_eq ig vk e₂ t₂ ht₂ htag₂, ← hlen]
  by_cases hz : e₁.length = 0
  · simp [hz]
  · simp only [hz, if_false]
    set f : (MapKey × Value) → MapKey × Except HashErr (List Nat) :=
      fun e => (e.1, writeSingularValue ig vk e.2) with hf
    have hkey : ∀ x : MapKey × Value, (f x).1 = x.1 := fun x => rfl
    have hs₁ : insertionSort keyLt (mapChunks ig vk e₁) = (insertionSort keyLt e₁).map f := by
      rw [mapChunks_eq_map]
      exact insertionSort_map_keyLt f hkey e₁
    have hs₂ : insertionSort keyLt (mapChunks ig vk e₂) = (insertionSort keyLt e₂).map f := by
      rw [mapChunks_eq_map]
      exact insertionSort_map_keyLt f hkey e₂
    rw [hs₁, hs₂, concatResults_eq_concatVals, concatResults_eq_concatVals,
      List.map_map, List.map_map]
    have hcomp : ∀ l : List (MapKey × Value),
        l.map (Prod.snd ∘ f) = (l.map Prod.snd).map (writeSingularValue ig vk) := by
      intro l
      rw [List.map_map]
      rfl
    rw [hcomp, hcomp]
    have hv' : (insertionSort keyLt e₁).map Prod.snd = (insertionSort keyLt e₂).map Prod.snd := hv
    rw [hv']

/-! ### The field-collection loop as a `filterMap` -/

theorem msgChunks_eq_filterMap (ig : List String) (fs : List Field) :
    msgChunks ig fs = fs.filterMap (chunkOf ig) := by
  induction fs with
  | nil => simp [msgChunks]
  | cons f fs ih =>
      cases f with
      | mk fd val =>
          by_cases h : (shouldIgnore ig fd || !(Field.mk fd val).has) = true
          · simp [msgChunks, h, chunkOf, Field.fd, Field.val, ih]
          · simp only [Bool.not_eq_true] at h
            simp [msgChunks, h, chunkOf, Field.fd, Field.val, ih]

theorem chunkOf_none_of_not_has (ig : List String) (f : Field) (h : f.has = false) :
    chunkOf ig f = none := by
  simp [chunkOf, h]

theorem msgChunks_filter_populated (ig : List String) (fs : List Field) :
    msgChunks ig (fs.filter Field.has) = msgChunks ig fs := by
  rw [msgChunks_eq_filterMap, msgChunks_eq_filterMap]
  induction fs with
  | nil => simp
  | cons f fs ih =>
      cases hhas : f.has with
      | true => simp [List.filter_cons, hhas, List.filterMap_cons, ih]
      | false =>
          simp [List.filter_cons, hhas, List.filterMap_cons,
            chunkOf_none_of_not_has ig f hhas, ih]

/-! ### Error analysis of the write loop -/

theorem getLast?_mem : ∀ (l : List α) (a : α), l.getLast? = some a → a ∈ l
  | [], a, h => by simp at h
  | [x], a, h => by
      simp only [List.getLast?_singleton, Option.some.injEq] at h
      simp [h]
  | x :: y :: l, a, h => by
      rw [List.getLast?_cons_cons] at h
      exact List.mem_cons_of_mem x (getLast?_mem (y :: l) a h)

theorem lookupChunk_mem (chunks : List Chunk) (n : Nat) (c : Chunk)
    (h : lookupChunk chunks n = some c) : c ∈ chunks := by
  have := getLast?_mem _ _ h
  exact List.mem_of_mem_filter this

theorem assembleGo_error (chunks : List Chunk) (ns : List Nat) (e : HashErr)
    (h : assembleGo chunks ns = .error e) :
    ∃ c ∈ chunks, ∃ er, c.result = .error er ∧ e = .wrapped c.fullName er := by
  induction ns with
  | nil => simp [assembleGo] at h
  | cons n ns ih =>
      rw [assembleGo] at h
      split at h
      · exact ih h
      · next c hlook =>
          split at h
          · next er hres =>
              simp only [Except.error.injEq] at h
              exact ⟨c, lookupChunk_mem chunks n c hlook, er, hres, h.symm⟩
          · next bs hres =>
              split at h
              · next er2 hrec =>
                  simp only [Except.error.injEq] at h
                  subst h
                  exact ih hrec
              · simp at h

theorem hashMsg_error (ig : List String) (m : Msg) (e : HashErr)
    (h : hashMsg ig m = .error e) :
    ∃ f ∈ m, shouldIgnore ig f.fd = false ∧ f.has = true ∧
      ∃ er, writeFieldValue ig f.fd f.val = .error er ∧ e = .wrapped f.fd.fullName er := by
  rw [hashMsg, assembleChunks] at h
  obtain ⟨c, hc, er, hres, he⟩ := assembleGo_error _ _ _ h
  rw [msgChunks_eq_filterMap] at hc
  obtain ⟨f, hf, hcf⟩ := List.mem_filterMap.mp hc
  rw [chunkOf] at hcf
  by_cases hskip : (shouldIgnore ig f.fd || !f.has) = true
  · rw [if_pos hskip] at hcf
    simp at hcf
  · rw [if_neg hskip] at hcf
    simp only [Option.some.injEq] at hcf
    subst hcf
    simp only [Bool.or_eq_true, Bool.not_eq_true', not_or] at hskip
    exact ⟨f, hf, by simpa using hskip.1, by simpa using hskip.2, er, hres, he⟩

theorem hashMsg_error_wrapped (ig : List String) (m : Msg) (e : HashErr)
    (h : hashMsg ig m = .error e) : e.isWrapped = true := by
  obtain ⟨f, _, _, _, er, _, he⟩ := hashMsg_error ig m e h
  rw [he]
  rfl

theorem writeSingularValue_error (ig : List String) (k : Kind) (v : Value) (e : HashErr)
    (h : writeSingularValue ig k v = .error e) :
    e = .unsupportedKind .group ∨ e.isWrapped = true := by
  cases k <;> cases v <;>
    simp only [writeSingularValue] at h <;>
    first
    | (simp only [Except.error.injEq] at h
       exact Or.inl h.symm)
    | (exact absurd h (by simp))
    | (exact Or.inr (hashMsg_error_wrapped ig _ e h))

theorem writeMapValue_no_panic (ig : List String) (vk : Kind) (es : List (MapKey × Value))
    (t : Nat) (ht : t ≤ 5) (htag : ∀ e ∈ es, e.1.tag = t) :
    writeMapValue ig vk es ≠ .error .panicUnexpectedKeyType := by
  rw [writeMapValue_eq ig vk es t ht htag]
  by_cases hz : es.length = 0
  · simp [hz]
  · simp only [hz, if_false]
    intro h
    obtain ⟨x, hx, hxe⟩ := concatResults_error _ _ h
    have hx' : x ∈ mapChunks ig vk es := (mem_insertionSort keyLt).mp hx
    rw [mapChunks_eq_map] at hx'
    obtain ⟨y, _, rfl⟩ := List.mem_map.mp hx'
    rcases writeSingularValue_error ig vk y.2 _ hxe with h1 | h1
    · exact HashErr.noConfusion h1
    · simp [HashErr.isWrapped] at h1

/-! ### Ignored fields contribute nothing -/

theorem chunkOf_none_of_ignored (ig : List String) (f : Field)
    (h : shouldIgnore ig f.fd = true) : chunkOf ig f = none := by
  simp [chunkOf, h]

/-! ### The processing order is the ascending sort of the populated
field numbers, independent of declaration order -/

theorem numbersOf_sorted (chunks : List Chunk) : (numbersOf chunks).Pairwise (· ≤ ·) := by
  have h := insertionSort_pairwise (fun _ => True) (fun a b : Nat => decide (a < b))
    (by intro x y _ _ h; simp at h ⊢; omega)
    (by intro x y z _ _ _ h₁ h₂; simp at h₁ h₂ ⊢; omega)
    (chunks.map Chunk.number) (by intro x _; trivial)
  refine h.imp ?_
  intro a b hab
  simp at hab
  omega

theorem numbersOf_perm_congr (c₁ c₂ : List Chunk) (hperm : c₁.Perm c₂) :
    numbersOf c₁ = numbersOf c₂ := by
  have hnums : (c₁.map Chunk.number).Perm (c₂.map Chunk.number) := hperm.map _
  have hpair := fun (l : List Chunk) => insertionSort_pairwise (fun _ => True)
    (fun a b : Nat => decide (a < b))
    (by intro x y _ _ h; simp at h ⊢; omega)
    (by intro x y z _ _ _ h₁ h₂; simp at h₁ h₂ ⊢; omega)
    (l.map Chunk.number) (by intro x _; trivial)
  refine pairwise_perm_eq (fun a b : Nat => decide (a < b)) _ _ ?_ ?_ (hpair c₁) (hpair c₂)
  · exact ((insertionSort_perm _ _).trans hnums).trans (insertionSort_perm _ _).symm
  · intro x _ y _ hxy
    rcases Nat.lt_or_ge x y with h | h
    · exact Or.inl (by simpa using h)
    · rcases Nat.lt_or_ge y x with h2 | h2
      · exact Or.inr (by simpa using h2)
      · exact absurd (Nat.le_antisymm h2 h) hxy

theorem filter_length_le_one {β : Type} [DecidableEq β] (f : α → β) (n : β) (l : List α)
    (hnd : (l.map f).Nodup) : (l.filter (fun c => f c = n)).length ≤ 1 := by
  induction l with
  | nil => simp
  | cons c l ih =>
      rw [List.map_cons, List.nodup_cons] at hnd
      by_cases h : f c = n
      · rw [List.filter_cons_of_pos (by simpa using h)]
        have hnil : l.filter (fun c => f c = n) = [] := by
          refine List.filter_eq_nil_iff.mpr ?_
          intro x hx
          have : f x ≠ f c := fun hc => hnd.1 (hc ▸ List.mem_map_of_mem f hx)
          simp [h ▸ this]
        rw [hnil]
        simp
      · rw [List.filter_cons_of_neg (by simpa using h)]
        exact ih hnd.2

theorem perm_eq_of_length_le_one (l₁ l₂ : List α) (h : l₁.Perm l₂) (hl : l₁.length ≤ 1) :
    l₁ = l₂ := by
  cases l₁ with
  | nil => exact h.nil_eq
  | cons a t =>
      cases t with
      | nil => exact List.singleton_perm.mp h
      | cons b t2 => simp at hl

theorem lookupChunk_congr (c₁ c₂ : List Chunk) (hperm : c₁.Perm c₂)
    (hnd : (c₁.map Chunk.number).Nodup) (n : Nat) :
    lookupChunk c₁ n = lookupChunk c₂ n := by
  rw [lookupChunk, lookupChunk]
  have hfil : (c₁.filter (fun c => c.number = n)).Perm (c₂.filter (fun c => c.number = n)) := by
    have := hperm.filter (fun c => decide (c.number = n))
    simpa using this
  rw [perm_eq_of_length_le_one _ _ hfil (filter_length_le_one Chunk.number n c₁ hnd)]

theorem assembleGo_congr (c₁ c₂ : List Chunk)
    (h : ∀ n, lookupChunk c₁ n = lookupChunk c₂ n) :
    ∀ ns, assembleGo c₁ ns = assembleGo c₂ ns := by
  intro ns
  induction ns with
  | nil => rfl
  | cons n ns ih =>
      rw [assembleGo, assembleGo, ← h n, ih]

theorem assembleChunks_perm (c₁ c₂ : List Chunk) (hperm : c₁.Perm c₂)
    (hnd : (c₁.map Chunk.number).Nodup) :
    assembleChunks c₁ = assembleChunks c₂ := by
  rw [assembleChunks, assembleChunks, ← numbersOf_perm_congr c₁ c₂ hperm]
  exact assembleGo_congr c₁ c₂ (fun n => lookupChunk_congr c₁ c₂ hperm hnd n) _

theorem msgChunks_numbers_sublist (ig : List String) (fs : List Field) :
    ((msgChunks ig fs).map Chunk.number).Sublist (fs.map (fun f => f.fd.number)) := by
  induction fs with
  | nil => simp [msgChunks]
  | cons f fs ih =>
      rw [msgChunks_eq_filterMap, List.filterMap_cons]
      rw [msgChunks_eq_filterMap] at ih
      cases hc : chunkOf ig f with
      | none => exact ih.cons _
      | some c =>
          have hn : c.number = f.fd.number := by
            rw [chunkOf] at hc
            by_cases h : (shouldIgnore ig f.fd || !f.has) = true
            · rw [if_pos h] at hc; simp at hc
            · rw [if_neg h] at hc
              simp only [Option.some.injEq] at hc
              rw [← hc]
          rw [List.map_cons, List.map_cons, hn]
          exact ih.cons₂ _

theorem hashMsg_decl_order (ig : List String) (fs₁ fs₂ : List Field) (hperm : fs₁.Perm fs₂)
    (hnd : (fs₁.map (fun f => f.fd.number)).Nodup) :
    hashMsg ig fs₁ = hashMsg ig fs₂ := by
  rw [hashMsg, hashMsg]
  refine assembleChunks_perm _ _ ?_ ((msgChunks_numbers_sublist ig fs₁).nodup hnd)
  rw [msgChunks_eq_filterMap, msgChunks_eq_filterMap]
  exact hperm.filterMap _

theorem pairwise_and (R S : α → α → Prop) (l : List α) (h1 : l.Pairwise R)
    (h2 : l.Pairwise S) : l.Pairwise (fun a b => R a b ∧ S a b) := by
  induction l with
  | nil => simp
  | cons a l ih =>
      rw [List.pairwise_cons] at h1 h2 ⊢
      exact ⟨fun b hb => ⟨h1.1 b hb, h2.1 b hb⟩, ih h1.2 h2.2⟩

theorem numbersOf_sorted_strict (chunks : List Chunk)
    (hnd : (chunks.map Chunk.number).Nodup) : (numbersOf chunks).Pairwise (· < ·) := by
  have hle := numbersOf_sorted chunks
  have hperm : (numbersOf chunks).Perm (chunks.map Chunk.number) := insertionSort_perm _ _
  have hnd' : (numbersOf chunks).Nodup := hperm.nodup_iff.mpr hnd
  have hne : (numbersOf chunks).Pairwise (· ≠ ·) := hnd'
  exact (pairwise_and _ _ _ hle hne).imp (fun h => lt_of_le_of_ne h.1 h.2)

theorem writeSingularValue_group (ig : List String) (v : Value) :
    writeSingularValue ig .group v = .error (.unsupportedKind .group) := by
  cases v <;> simp [writeSingularValue]

theorem assembleChunks_singleton (c : Chunk) :
    assembleChunks [c] =
      match c.result with
      | .error e => .error (.wrapped c.fullName e)
      | .ok bs => .ok bs := by
  obtain ⟨n, name, res⟩ := c
  rw [assembleChunks]
  have hnum : numbersOf [⟨n, name, res⟩] = [n] := by
    simp [numbersOf, insertionSort, orderedInsert]
  rw [hnum, assembleGo]
  have hlook : lookupChunk [(⟨n, name, res⟩ : Chunk)] n = some ⟨n, name, res⟩ := by
    simp [lookupChunk]
  rw [hlook]
  cases res with
  | error e => rfl
  | ok bs => simp [assembleGo]

/-! ## Claims -/

/-- **C2**: a message whose single `int32` field is unset hashes
identically to a message with no fields set at all; under a
presence-tracking (proto3 `optional`) schema an instance with the field
explicitly set to `0` is populated and feeds `varint(0)` to the sink,
so its byte stream differs from the unset instance's; in general only
fields passing the presence test (`msg.Has`) contribute bytes: dropping
every unpopulated field from a message leaves the hash unchanged. -/
theorem c2_unset_vs_default :
    (hashMsg [] [Field.mk fdSingleInt32 none] = hashMsg [] ([] : Msg)) ∧
    (hashMsg [] [Field.mk fdOptInt32 (some (.singular (.vInt 0)))] ≠
      hashMsg [] [Field.mk fdOptInt32 none]) ∧
    (∀ (ig : List String) (fs : List Field),
      hashMsg ig fs = hashMsg ig (fs.filter Field.has)) := by
  refine ⟨?_, ?_, ?_⟩
  · simp [hashMsg, msgChunks, Field.has, shouldIgnore, fdSingleInt32]
  · have h1 : hashMsg [] [Field.mk fdOptInt32 (some (.singular (.vInt 0)))] = .ok [0] := by
      simp [hashMsg, msgChunks, writeFieldValue, writeSingularValue, fdOptInt32,
        shouldIgnore, Field.has]
      rfl
    have h2 : hashMsg [] [Field.mk fdOptInt32 none] = .ok [] := by
      simp [hashMsg, msgChunks, fdOptInt32, shouldIgnore, Field.has, assembleChunks,
        numbersOf, insertionSort, assembleGo]
    rw [h1, h2]
    simp
  · intro ig fs
    rw [hashMsg, hashMsg, msgChunks_filter_populated]

/-- **C3**: the canonical encoding table.  The two-field example message
(string `"ab"` at number 1, `int32` `5` at number 2) feeds exactly
`varint(2) ++ "ab" ++ varint(5)` to the sink; each scalar kind encodes
per the table (bool as varint 0/1, sint kinds as varint of the zig-zag,
fixed32/float as 4 little-endian bytes, fixed64/double as 8
little-endian bytes, string/bytes as varint length plus raw bytes), and
a nested message contributes its own stream with no length prefix. -/
theorem c3_canonical_encoding :
    hashMsg [] examplePairMsg = .ok ([2, 97, 98] ++ [5]) ∧
    writeSingularValue [] .bool (.vBool true) = .ok [1] ∧
    writeSingularValue [] .bool (.vBool false) = .ok [0] ∧
    writeSingularValue [] .int32 (.vInt (-1)) =
      .ok [255, 255, 255, 255, 255, 255, 255, 255, 255, 1] ∧
    writeSingularValue [] .sint32 (.vInt (-3)) = .ok [5] ∧
    writeSingularValue [] .sint64 (.vInt 2) = .ok [4] ∧
    writeSingularValue [] .uint32 (.vUint 300) = .ok [172, 2] ∧
    writeSingularValue [] .fixed32 (.vUint 1) = .ok [1, 0, 0, 0] ∧
    writeSingularValue [] .sfixed32 (.vInt (-2)) = .ok [254, 255, 255, 255] ∧
    writeSingularValue [] .float (.vFloat 0x3f800000) = .ok [0, 0, 128, 63] ∧
    writeSingularValue [] .fixed64 (.vUint 1) = .ok [1, 0, 0, 0, 0, 0, 0, 0] ∧
    writeSingularValue [] .sfixed64 (.vInt (-1)) =
      .ok [255, 255, 255, 255, 255, 255, 255, 255] ∧
    writeSingularValue [] .double (.vFloat 0x3ff0000000000000) =
      .ok [0, 0, 0, 0, 0, 0, 240, 63] ∧
    writeSingularValue [] .string (.vStr [97, 98]) = .ok [2, 97, 98] ∧
    writeSingularValue [] .bytes (.vBytes [5, 6]) = .ok [2, 5, 6] ∧
    writeSingularValue [] .enum (.vInt 2) = .ok [2] ∧
    hashMsg []
        [Field.mk fdNestedOne
          (some (.singular (.vMsg [Field.mk fdIntTwo (some (.singular (.vInt 7)))])))] =
      .ok [7] := by
  refine ⟨?_, ?_⟩
  · simp [hashMsg, msgChunks, writeFieldValue, writeSingularValue, examplePairMsg,
      fdStrOne, fdIntTwo, shouldIgnore, Field.has]
    rfl
  · refine ⟨?_, ?_, ?_, ?_, ?_, ?_, ?_, ?_, ?_, ?_, ?_, ?_, ?_, ?_, ?_, ?_⟩ <;>
      first
      | (simp [writeSingularValue]
         rfl)
      | (simp [hashMsg, msgChunks, writeFieldValue, writeSingularValue, fdNestedOne,
          fdIntTwo, shouldIgnore, Field.has]
         rfl)

/-- **C7**: `Sum64` and `Sum` reject a null message with the
invalid-input error and return no result; `Sum64` fails with the
unsupported-operation error when the sink does not implement
`hash.Hash64` (checked after a successful traversal). -/
theorem c7_entry_point_errors :
    (∀ (ig : List String) (sink : Sink), Sum64 none ig sink = .error .invalidMsg) ∧
    (∀ (b : List Nat) (ig : List String), Sum b none ig = .error .invalidMsg) ∧
    (∀ (pb : Option Msg) (ig : List String) (sink : Sink) (bytes : List Nat),
      doHash pb ig = .ok bytes → sink.is64 = false →
      Sum64 pb ig sink = .error .unsupported) := by
  refine ⟨?_, ?_, ?_⟩
  · intro ig sink
    rfl
  · intro b ig
    rfl
  · intro pb ig sink bytes hok h64
    rw [Sum64, hok, h64]
    rfl

/-- Witness for C7 at a concrete input: the empty message hashes to the
empty stream, and a sink without 64-bit support makes `Sum64` fail with
the unsupported-operation error. -/
theorem c7_entry_point_errors_witness :
    Sum64 (some ([] : Msg)) [] ⟨false⟩ = .error .unsupported := by
  refine c7_entry_point_errors.2.2 (some ([] : Msg)) [] ⟨false⟩ [] ?_ rfl
  simp [doHash, hashMsg, msgChunks, assembleChunks, numbersOf, insertionSort, assembleGo]

/-- **C4** (amended): the claim holds for the reflective implementation:
under the schema invariant that field numbers are distinct, the write
loop of `pbHasher.hash` processes the populated, non-ignored fields in
strictly ascending field-number order, obtained by an explicit sort of
the populated set — so the hash is invariant under any permutation of
the declared field list (declaration order is irrelevant).  The
generated implementation does not share the property (see the
counterexample). -/
theorem c4_reflective_ascending_order (ig : List String) (fs : List Field)
    (hnd : (fs.map (fun f => f.fd.number)).Nodup) :
    (numbersOf (msgChunks ig fs)).Pairwise (· < ·) ∧
    hashMsg ig fs = assembleGo (msgChunks ig fs) (numbersOf (msgChunks ig fs)) ∧
    (∀ fs₂, fs.Perm fs₂ → hashMsg ig fs = hashMsg ig fs₂) := by
  refine ⟨?_, ?_, ?_⟩
  · exact numbersOf_sorted_strict _ ((msgChunks_numbers_sublist ig fs).nodup hnd)
  · rw [hashMsg, assembleChunks]
  · intro fs₂ hperm
    exact hashMsg_decl_order ig fs fs₂ hperm hnd

/-- Witness for C4 at a concrete input: the two-field example message,
declared in either order, hashes to the same stream, with the numbers
processed in strictly ascending order. -/
theorem c4_reflective_ascending_order_witness :
    (numbersOf (msgChunks [] examplePairMsg)).Pairwise (· < ·) ∧
    hashMsg [] examplePairMsg =
      hashMsg [] [Field.mk fdIntTwo (some (.singular (.vInt 5))),
        Field.mk fdStrOne (some (.singular (.vStr [97, 98])))] := by
  have h := c4_reflective_ascending_order [] examplePairMsg (by decide)
  exact ⟨h.1, h.2.2 _ (List.Perm.swap _ _ _)⟩

/-- **C4** counterexample: the generated implementation does not visit
populated fields in ascending field-number order.  For the schema with
oneof members numbered 1 and 3 and a plain field numbered 2, the
instance with member 3 set to `7` and field 2 set to `1` makes the
generated routine write field 3's bytes (`varint 7`) before field 2's
(`varint 1`) — the oneof is emitted at its lowest member's slot — while
the reflective traversal writes `varint 1` then `varint 7`. -/
theorem c4_generated_order_counterexample :
    genHashMsg [] interleavedOneofMsg = [7, 1] ∧
    hashMsg [] interleavedOneofMsg = .ok [1, 7] ∧
    ([7, 1] : List Nat) ≠ [1, 7] := by
  refine ⟨?_, ?_, by decide⟩
  · simp [genHashMsg, genChunks, genFieldBytes, genSingularBytes, genAssemble, genWalk,
      genMemberBytes, insertionSort, orderedInsert, interleavedOneofMsg, fdOneofA,
      fdPlainB, fdOneofC, Field.has]
    rfl
  · simp [hashMsg, msgChunks, writeFieldValue, writeSingularValue, interleavedOneofMsg,
      fdOneofA, fdPlainB, fdOneofC, shouldIgnore, Field.has]
    rfl

/-- **C1** (amended): on the 3-level self-nested message with identical
fully-populated leaf payloads the generated routine writes byte-for-byte
the same stream as the reflective traversal. -/
theorem c1_nested_parity :
    hashMsg [] (nestedMsg 2) = .ok (genHashMsg [] (nestedMsg 2)) := by
  simp [hashMsg, msgChunks, writeFieldValue, writeSingularValue, writeListValue,
    writeMapValue, mapChunks, genHashMsg, genChunks, genFieldBytes, genListBytes,
    genMapChunks, genSingularBytes, nestedMsg, leafMsg, shouldIgnore, Field.has,
    fdNestChild, fdNestPayload, fdLeafI, fdLeafS, fdLeafB, fdLeafM, fdLeafR]
  rfl

/-- **C1** counterexample: byte-for-byte parity between the generated
routine and the reflective traversal fails on a message whose single
`int32` field is unset — the reflective traversal skips the
not-populated field and feeds the sink nothing, while the generated
routine writes the accessor's zero value unconditionally and feeds it
`varint(0)`. -/
theorem c1_parity_counterexample :
    hashMsg [] [Field.mk fdSingleInt32 none] = .ok [] ∧
    genHashMsg [] [Field.mk fdSingleInt32 none] = [0] ∧
    (([0] : List Nat) ≠ []) := by
  refine ⟨?_, ?_, by decide⟩
  · simp [hashMsg, msgChunks, Field.has, shouldIgnore, fdSingleInt32, assembleChunks,
      numbersOf, insertionSort, assembleGo]
  · simp [genHashMsg, genChunks, genFieldBytes, genAssemble, genWalk, insertionSort,
      orderedInsert, fdSingleInt32, Field.has, scalarEncode, defaultValue]
    rfl

/-- **C5**: map entries are processed in a canonical strict total order
on keys — `false` before `true` for boolean keys, numerically ascending
for signed and unsigned integer keys, byte-wise lexicographic for
string keys — so for any well-formed map (one permitted key kind,
distinct keys) the bytes written are invariant under any permutation of
the entries. -/
theorem c5_map_order_invariance :
    (∀ (ig : List String) (vk : Kind) (e₁ e₂ : List (MapKey × Value)) (t : Nat),
      t ≤ 5 → (∀ e ∈ e₁, e.1.tag = t) → (e₁.map Prod.fst).Nodup → e₁.Perm e₂ →
      writeMapValue ig vk e₁ = writeMapValue ig vk e₂) ∧
    (∀ b₁ b₂ : Bool, compareMapKeys (.kBool b₁) (.kBool b₂) = some (!b₁ && b₂)) ∧
    (∀ i j : Int, compareMapKeys (.kInt32 i) (.kInt32 j) = some (decide (i < j))) ∧
    (∀ i j : Int, compareMapKeys (.kInt64 i) (.kInt64 j) = some (decide (i < j))) ∧
    (∀ m n : Nat, compareMapKeys (.kUint32 m) (.kUint32 n) = some (decide (m < n))) ∧
    (∀ m n : Nat, compareMapKeys (.kUint64 m) (.kUint64 n) = some (decide (m < n))) ∧
    (∀ s t : List Nat, compareMapKeys (.kString s) (.kString t) = some (bytesLt s t)) := by
  refine ⟨?_, fun b₁ b₂ => rfl, fun i j => rfl, fun i j => rfl, fun m n => rfl,
    fun m n => rfl, fun s t => rfl⟩
  intro ig vk e₁ e₂ t ht htag hnd hperm
  exact writeMapValue_perm ig vk e₁ e₂ hperm t ht htag hnd

/-- Witness for C5 at a concrete input: an `int64`-keyed map written in
the two possible insertion orders produces the same bytes. -/
theorem c5_map_order_invariance_witness :
    writeMapValue [] .string [(.kInt64 1, .vStr [97]), (.kInt64 2, .vStr [98])] =
      writeMapValue [] .string [(.kInt64 2, .vStr [98]), (.kInt64 1, .vStr [97])] :=
  c5_map_order_invariance.1 [] .string
    [(.kInt64 1, .vStr [97]), (.kInt64 2, .vStr [98])]
    [(.kInt64 2, .vStr [98]), (.kInt64 1, .vStr [97])]
    2 (by decide) (by decide) (by decide) (List.Perm.swap _ _ _)

/-- **C6**: a field in the ignore set contributes nothing: the hash is
invariant under any change to the ignored field's value or presence
(including unsetting it), and the field is never recursed into; a
member of a oneof is also tested against the oneof's fully-qualified
name. -/
theorem c6_ignore_invariance :
    (∀ (ig : List String) (pre post : List Field) (fd : FieldDescriptor)
        (val valp : Option FieldValue), shouldIgnore ig fd = true →
      hashMsg ig (pre ++ Field.mk fd val :: post) =
        hashMsg ig (pre ++ Field.mk fd valp :: post)) ∧
    (∀ (ig : List String) (fd : FieldDescriptor) (od : OneofDesc),
      fd.containingOneof = some od → ig.contains od.fullName = true →
      shouldIgnore ig fd = true) := by
  constructor
  · intro ig pre post fd val valp h
    rw [hashMsg, hashMsg, msgChunks_eq_filterMap, msgChunks_eq_filterMap,
      List.filterMap_append, List.filterMap_append, List.filterMap_cons, List.filterMap_cons,
      chunkOf_none_of_ignored ig (Field.mk fd val) (by simpa [Field.fd] using h),
      chunkOf_none_of_ignored ig (Field.mk fd valp) (by simpa [Field.fd] using h)]
  · intro ig fd od hod hc
    rw [shouldIgnore, hod]
    simp only [Bool.or_eq_true]
    exact Or.inl hc

/-- Witness for C6 at a concrete input: with the single `int32` field
ignored, setting it to `42` and leaving it unset produce the same
stream; and a oneof member is ignored via its oneof's name. -/
theorem c6_ignore_invariance_witness :
    hashMsg ["test.Single.i"] [Field.mk fdSingleInt32 (some (.singular (.vInt 42)))] =
      hashMsg ["test.Single.i"] [Field.mk fdSingleInt32 none] ∧
    shouldIgnore ["test.M4.o"] fdOneofA = true :=
  ⟨c6_ignore_invariance.1 ["test.Single.i"] [] [] fdSingleInt32
      (some (.singular (.vInt 42))) none (by decide),
   c6_ignore_invariance.2 ["test.M4.o"] fdOneofA ⟨"test.M4.o", false⟩ rfl (by decide)⟩

/-- **C8**: a populated, non-ignored field whose kind has no rule in the
encoding table (`group`) makes the whole hash fail — wrapped with the
field's fully-qualified name — rather than being skipped or
default-encoded; and every error `pbHasher.hash` surfaces is wrapped
with the fully-qualified name of the populated, non-ignored field being
processed. -/
theorem c8_unsupported_kind_errors :
    (∀ (ig : List String) (fd : FieldDescriptor) (v : Value),
      fd.kind = .group → fd.card = .singular → shouldIgnore ig fd = false →
      hashMsg ig [Field.mk fd (some (.singular v))] =
        .error (.wrapped fd.fullName (.unsupportedKind .group))) ∧
    (∀ (ig : List String) (m : Msg) (e : HashErr), hashMsg ig m = .error e →
      ∃ f ∈ m, shouldIgnore ig f.fd = false ∧ f.has = true ∧
        ∃ er, e = .wrapped f.fd.fullName er) := by
  constructor
  · intro ig fd v hk hc hig
    have hchunks : msgChunks ig [Field.mk fd (some (.singular v))] =
        [⟨fd.number, fd.fullName, writeFieldValue ig fd (some (.singular v))⟩] := by
      simp [msgChunks, hig, Field.has]
    have hwf : writeFieldValue ig fd (some (.singular v)) =
        .error (.unsupportedKind .group) := by
      rw [writeFieldValue.eq_def, hc, hk]
      exact writeSingularValue_group ig v
    rw [hashMsg, hchunks, assembleChunks_singleton, hwf]
  · intro ig m e h
    obtain ⟨f, hf, hig, hhas, er, _, he⟩ := hashMsg_error ig m e h
    exact ⟨f, hf, hig, hhas, er, he⟩

/-- Witness for C8 at a concrete input: a message whose only field is a
populated `group`-kind field fails with the unsupported-kind error
wrapped in the field's fully-qualified name. -/
theorem c8_unsupported_kind_errors_witness :
    hashMsg [] [Field.mk fdGroupOne (some (.singular (.vInt 0)))] =
      .error (.wrapped "test.G.g" (.unsupportedKind .group)) := by
  have := c8_unsupported_kind_errors.1 [] fdGroupOne (.vInt 0) rfl rfl (by decide)
  simpa [fdGroupOne] using this

/-- **C9**: map keys contribute no bytes — `writeMapValue` writes only
the entries' values, in sorted key order, so two well-formed maps whose
value sequences agree when each is read in its own sorted key order
produce identical bytes (even when their key sets differ). -/
theorem c9_map_keys_not_hashed :
    ∀ (ig : List String) (vk : Kind) (e₁ e₂ : List (MapKey × Value)) (t₁ t₂ : Nat),
      t₁ ≤ 5 → t₂ ≤ 5 → (∀ e ∈ e₁, e.1.tag = t₁) → (∀ e ∈ e₂, e.1.tag = t₂) →
      sortedMapValues e₁ = sortedMapValues e₂ →
      writeMapValue ig vk e₁ = writeMapValue ig vk e₂ := by
  intro ig vk e₁ e₂ t₁ t₂ ht₁ ht₂ htag₁ htag₂ hv
  exact writeMapValue_values ig vk e₁ e₂ t₁ t₂ ht₁ ht₂ htag₁ htag₂ hv

/-- Witness for C9 at the concrete input from the claim: the maps
`{1 ↦ "a", 2 ↦ "b"}` and `{7 ↦ "a", 9 ↦ "b"}` hash identically. -/
theorem c9_map_keys_not_hashed_witness :
    writeMapValue [] .string [(.kInt64 1, .vStr [97]), (.kInt64 2, .vStr [98])] =
      writeMapValue [] .string [(.kInt64 7, .vStr [97]), (.kInt64 9, .vStr [98])] :=
  c9_map_keys_not_hashed [] .string
    [(.kInt64 1, .vStr [97]), (.kInt64 2, .vStr [98])]
    [(.kInt64 7, .vStr [97]), (.kInt64 9, .vStr [98])]
    2 2 (by decide) (by decide) (by decide) (by decide) rfl

/-- **C10**: the map-key comparator is total on every key kind protobuf
permits for map keys — for two keys of one such kind the panic branch
is unreachable — hence sorting a well-formed map's entries always
succeeds and hashing such a map never takes the
unexpected-key-type panic. -/
theorem c10_comparator_total :
    (∀ a b : MapKey, a.tag = b.tag → a.tag ≤ 5 → (compareMapKeys a b).isSome = true) ∧
    (∀ (ig : List String) (vk : Kind) (es : List (MapKey × Value)) (t : Nat),
      t ≤ 5 → (∀ e ∈ es, e.1.tag = t) →
      sortByKeyM (mapChunks ig vk es) = .ok (insertionSort keyLt (mapChunks ig vk es)) ∧
      writeMapValue ig vk es ≠ .error .panicUnexpectedKeyType) := by
  constructor
  · exact compareMapKeys_isSome
  · intro ig vk es t ht htag
    have htag' : ∀ e ∈ mapChunks ig vk es, e.1.tag = t := by
      rw [mapChunks_eq_map]
      intro e he
      obtain ⟨x, hx, rfl⟩ := List.mem_map.mp he
      exact htag x hx
    exact ⟨sortByKeyM_ok t ht _ htag', writeMapValue_no_panic ig vk es t ht htag⟩

/-- Witness for C10 at a concrete input: comparing two `uint64` keys is
defined, and hashing a concrete two-entry map neither panics during
sorting nor returns the panic error. -/
theorem c10_comparator_total_witness :
    (compareMapKeys (.kUint64 3) (.kUint64 5)).isSome = true ∧
    writeMapValue [] .string [(.kUint64 5, .vStr [98]), (.kUint64 3, .vStr [97])] ≠
      .error .panicUnexpectedKeyType :=
  ⟨c10_comparator_total.1 (.kUint64 3) (.kUint64 5) rfl (by decide),
   (c10_comparator_total.2 [] .string [(.kUint64 5, .vStr [98]), (.kUint64 3, .vStr [97])]
      4 (by decide) (by decide)).2⟩

end Hashpb
